import Mathlib

/-!
Verification of the CityPulse feed-ranking and taste-learning engine.

This file gives a shallow embedding of the core algorithmic components of the
backend and proves the specification's testable properties about them:

* `UserDAO.update_user_taste` (app/dao.py): the online running-mean taste
  update.  Embedding components are modelled as exact rationals; the update
  rule, including the `zip`-based component-wise iteration of the source
  (which silently truncates on a length mismatch), is translated verbatim.
* the scoring functions (app/utils/ranking.py): time decay, score
  normalisation, the weighted final score, the two ranking modes and the
  diversity filter.  Float arithmetic is modelled over the reals, `math.exp`
  by `Real.exp`.  Python raises `ZeroDivisionError` on float division by
  zero, so `calculate_time_decay` is embedded as an `Except`-valued function
  that errors exactly when `decay_hours = 0`.  Python's `list.sort` with
  `reverse=True` is a stable descending sort; it is modelled by
  `List.mergeSort` with a comparator that holds on ties.
* the like route (app/routes/like.py) and `LikeDAO.create_like`
  (app/dao.py): modelled as explicit state transformers over a `DB` record
  holding the videos, likes and users collections; `datetime.utcnow()` and
  fresh ObjectIds are passed as parameters.
-/

/-- Taste profile of a user (`UserTaste` in app/models.py): running-mean
embedding, number of contributing likes, last update time. -/
structure UserTaste where
  embedding : List ℚ
  n : ℕ
  updated_at : ℚ
deriving DecidableEq, Repr

/-- The empty taste profile a newly created user starts with. -/
def emptyTaste : UserTaste := { embedding := [], n := 0, updated_at := 0 }

/-- `UserDAO.update_user_taste` (app/dao.py lines 165-206), profile-level
view: first like copies the vector, later likes fold it into the running
mean `(old*n + new)/(n+1)` component-wise.  The source iterates
`zip(old_embedding, video_embedding)`, i.e. `List.zipWith`, which silently
truncates to the shorter length when the dimensions disagree. -/
def update_user_taste (taste : UserTaste) (video_embedding : List ℚ) (now : ℚ) :
    UserTaste :=
  if taste.n = 0 then
    { embedding := video_embedding, n := 1, updated_at := now }
  else
    { embedding :=
        List.zipWith
          (fun old_val new_val => (old_val * (taste.n : ℚ) + new_val) / ((taste.n : ℚ) + 1))
          taste.embedding video_embedding,
      n := taste.n + 1,
      updated_at := now }

/-- Python exception classes relevant to the scoring functions.  The source
can only raise `ZeroDivisionError` (float division by zero);
`InvalidConfigError` and `InvalidWeightError` are named by the specification
but are raised nowhere in the code. -/
inductive PyErr where
  | zeroDivision
  | invalidConfig
  | invalidWeight
deriving DecidableEq, Repr

/-- Value computed by `calculate_time_decay` when the division is defined:
`exp(-hours_since / decay_hours)` clamped to `[0, 1]`, with
`hours_since = (now - created_at) / 3600` (timestamps in seconds). -/
noncomputable def decay_value (now created_at decay_hours : ℝ) : ℝ :=
  max 0 (min 1 (Real.exp (-((now - created_at) / 3600) / decay_hours)))

/-- `calculate_time_decay` (app/utils/ranking.py lines 9-24).  `now` is the
`datetime.utcnow()` read inside the function, passed explicitly.  Python
float division raises `ZeroDivisionError` exactly when `decay_hours == 0`;
otherwise the function returns the clamped exponential decay. -/
noncomputable def calculate_time_decay (now created_at decay_hours : ℝ) :
    Except PyErr ℝ :=
  if decay_hours = 0 then .error .zeroDivision
  else .ok (decay_value now created_at decay_hours)

/-- `normalize_vector_score` (app/utils/ranking.py lines 27-33). -/
noncomputable def normalize_vector_score (score : ℝ) : ℝ :=
  max 0 (min 1 score)

/-- `calculate_final_score` (app/utils/ranking.py lines 36-53): plain
weighted sum, no validation of the weights. -/
def calculate_final_score (vector_score time_decay vector_weight time_weight : ℝ) : ℝ :=
  vector_weight * vector_score + time_weight * time_decay

/-- The fields of `VideoDocument` (app/models.py) consumed by the ranking
core and the like route. -/
structure Video where
  id : String
  title : String
  tags : List String
  embedding : List ℚ
  created_at : ℝ

/-- The per-candidate `score_breakdown` dict built by the ranking functions
(app/utils/ranking.py lines 84-90 and 118-124). -/
structure ScoreBreakdown where
  vector_score : ℝ
  time_decay : ℝ
  final_score : ℝ
  vector_weight : ℝ
  time_weight : ℝ

/-- Loop body of `rank_videos_personalized` (app/utils/ranking.py lines
73-92): normalise the raw similarity, compute the decay, combine them with
weights `vector_weight` and `1 - vector_weight`. -/
noncomputable def score_item_personalized (now decay_hours vector_weight : ℝ)
    (p : Video × ℝ) : Except PyErr (Video × ScoreBreakdown) := do
  let nvs := normalize_vector_score p.2
  let td ← calculate_time_decay now p.1.created_at decay_hours
  pure (p.1,
    { vector_score := nvs,
      time_decay := td,
      final_score := calculate_final_score nvs td vector_weight (1 - vector_weight),
      vector_weight := vector_weight,
      time_weight := 1 - vector_weight })

/-- Accumulation loop shared by both ranking functions: score each
candidate in input order, building the pre-sort breakdown list; an
exception from any iteration propagates. -/
def traverse_scores {α β : Type} (f : α → Except PyErr β) :
    List α → Except PyErr (List β)
  | [] => .ok []
  | a :: rest =>
      match f a with
      | .error e => .error e
      | .ok i =>
          match traverse_scores f rest with
          | .error e => .error e
          | .ok r => .ok (i :: r)

/-- The accumulation loop of `rank_videos_personalized` (app/utils/ranking.py
lines 71-92). -/
noncomputable def score_list_personalized (now decay_hours vector_weight : ℝ) :
    List (Video × ℝ) → Except PyErr (List (Video × ScoreBreakdown)) :=
  traverse_scores (score_item_personalized now decay_hours vector_weight)

/-- Comparator of the sort `ranked_videos.sort(key=lambda x:
x[1]["final_score"], reverse=True)`: `a` may precede `b` iff
`a`'s final score is at least `b`'s. -/
noncomputable def final_desc (a b : Video × ScoreBreakdown) : Bool :=
  decide (b.2.final_score ≤ a.2.final_score)

/-- Python's `list.sort(..., reverse=True)` is a stable descending sort;
any stable sort is extensionally determined by the comparator and the input
order, so the stable `List.mergeSort` models it exactly. -/
noncomputable def sort_by_final_desc (l : List (Video × ScoreBreakdown)) :
    List (Video × ScoreBreakdown) :=
  l.mergeSort final_desc

/-- `rank_videos_personalized` (app/utils/ranking.py lines 56-97). -/
noncomputable def rank_videos_personalized (now : ℝ)
    (video_scores : List (Video × ℝ)) (decay_hours vector_weight : ℝ) :
    Except PyErr (List (Video × ScoreBreakdown)) :=
  (score_list_personalized now decay_hours vector_weight video_scores).map
    sort_by_final_desc

/-- Loop body of `rank_videos_recency` (app/utils/ranking.py lines 115-126):
no personalization, the final score is the time decay itself. -/
noncomputable def score_item_recency (now decay_hours : ℝ) (v : Video) :
    Except PyErr (Video × ScoreBreakdown) := do
  let td ← calculate_time_decay now v.created_at decay_hours
  pure (v,
    { vector_score := 0,
      time_decay := td,
      final_score := td,
      vector_weight := 0,
      time_weight := 1 })

/-- The accumulation loop of `rank_videos_recency` (app/utils/ranking.py
lines 113-126). -/
noncomputable def score_list_recency (now decay_hours : ℝ) :
    List Video → Except PyErr (List (Video × ScoreBreakdown)) :=
  traverse_scores (score_item_recency now decay_hours)

/-- `rank_videos_recency` (app/utils/ranking.py lines 100-131). -/
noncomputable def rank_videos_recency (now : ℝ) (videos : List Video)
    (decay_hours : ℝ) : Except PyErr (List (Video × ScoreBreakdown)) :=
  (score_list_recency now decay_hours videos).map sort_by_final_desc

/-- `max((tag_counts.get(tag, 0) for tag in video_tags), default=0)`
(app/utils/ranking.py lines 152-155).  The source takes `set(video.tags)`;
the maximum over the de-duplicated tag set equals the maximum over the tag
list, since duplicates contribute the same count. -/
def tag_max_count (tag_counts : String → ℕ) (video_tags : List String) : ℕ :=
  (video_tags.map tag_counts).foldr max 0

/-- Increment the counters of every tag of an admitted video
(app/utils/ranking.py lines 160-161).  Updating by membership increments
each distinct tag once, exactly as iterating over `set(video.tags)` does. -/
def bump_counts (tag_counts : String → ℕ) (video_tags : List String) :
    String → ℕ :=
  fun t => if t ∈ video_tags then tag_counts t + 1 else tag_counts t

/-- Main loop of `apply_diversity_filter` (app/utils/ranking.py lines
149-161): admit a video iff every one of its tags is currently below the
cap; admitted videos bump their tags' counters. -/
def diversity_loop (max_same_tags : ℕ) :
    List (Video × ScoreBreakdown) → (String → ℕ) → List (Video × ScoreBreakdown)
  | [], _ => []
  | p :: rest, tag_counts =>
      if tag_max_count tag_counts p.1.tags < max_same_tags then
        p :: diversity_loop max_same_tags rest (bump_counts tag_counts p.1.tags)
      else
        diversity_loop max_same_tags rest tag_counts

/-- `apply_diversity_filter` (app/utils/ranking.py lines 134-163), including
the early return for short inputs. -/
def apply_diversity_filter (ranked_videos : List (Video × ScoreBreakdown))
    (max_same_tags : ℕ) : List (Video × ScoreBreakdown) :=
  if ranked_videos.length ≤ max_same_tags then ranked_videos
  else diversity_loop max_same_tags ranked_videos (fun _ => 0)

/-- Number of surviving items carrying a given tag. -/
def count_with_tag (l : List (Video × ScoreBreakdown)) (t : String) : ℕ :=
  l.countP (fun p => decide (t ∈ p.1.tags))

/-- `LikeDocument` (app/models.py). -/
structure LikeDoc where
  id : String
  user_id : String
  video_id : String
  created_at : ℚ
deriving DecidableEq, Repr

/-- The MongoDB state touched by the like route: the `videos` and `likes`
collections and the `users` collection keyed by user id. -/
structure DB where
  videos : List Video
  likes : List LikeDoc
  users : String → Option UserTaste

/-- `VideoDAO.get_video` (app/dao.py lines 39-49): lookup by id. -/
def get_video (db : DB) (video_id : String) : Option Video :=
  db.videos.find? (fun v => v.id == video_id)

/-- `LikeDAO.user_has_liked` (app/dao.py lines 241-247). -/
def user_has_liked (db : DB) (user_id video_id : String) : Bool :=
  db.likes.any (fun l => l.user_id == user_id && l.video_id == video_id)

/-- The `find_one({"user_id": ..., "video_id": ...})` lookup shared by
`create_like` and `user_has_liked`. -/
def find_like (db : DB) (user_id video_id : String) : Option LikeDoc :=
  db.likes.find? (fun l => l.user_id == user_id && l.video_id == video_id)

/-- `LikeDAO.create_like` (app/dao.py lines 216-239): return the existing
like's id without inserting when the pair is already recorded, otherwise
insert a new like document under a fresh id. -/
def create_like (db : DB) (user_id video_id : String) (now : ℚ)
    (fresh_id : String) : String × DB :=
  match find_like db user_id video_id with
  | some existing => (existing.id, db)
  | none =>
      (fresh_id,
       { db with
           likes := db.likes ++
             [{ id := fresh_id, user_id := user_id, video_id := video_id,
                created_at := now }] })

/-- `UserDAO.get_user` read side (app/dao.py lines 152-163): a never-seen
user behaves as the empty taste profile (with `updated_at` defaulted to the
creation time). -/
def get_user_taste (users : String → Option UserTaste) (user_id : String)
    (now : ℚ) : UserTaste :=
  (users user_id).getD { embedding := [], n := 0, updated_at := now }

/-- `UserDAO.update_user_taste` collection-level effect (app/dao.py lines
165-206): read-or-create the profile, fold the vector in, write it back
under the user's key. -/
def update_user_taste_db (users : String → Option UserTaste)
    (user_id : String) (video_embedding : List ℚ) (now : ℚ) :
    String → Option UserTaste :=
  fun u =>
    if u = user_id then
      some (update_user_taste (get_user_taste users user_id now) video_embedding now)
    else users u

/-- Outcome of the like endpoint: HTTP 404, or a `LikeResponse(ok=True,
message=...)`. -/
inductive LikeOutcome where
  | notFound
  | success (message : String)
deriving DecidableEq, Repr

/-- `like_video` (app/routes/like.py lines 22-122): validate the video,
short-circuit when already liked, create the like record, and update the
taste profile only when the video has a non-empty embedding. -/
def like_video (db : DB) (user_id video_id : String) (now : ℚ)
    (fresh_id : String) : LikeOutcome × DB :=
  match get_video db video_id with
  | none => (.notFound, db)
  | some video =>
      if user_has_liked db user_id video_id then
        (.success "Video already liked", db)
      else
        let created := create_like db user_id video_id now fresh_id
        if video.embedding ≠ [] then
          (.success "Video liked successfully",
           { created.2 with
               users := update_user_taste_db created.2.users user_id
                 video.embedding now })
        else
          (.success "Video liked successfully", created.2)

/-- A ranked feed item whose video carries the single tag `"brooklyn"` and
whose breakdown carries the given final score; used to instantiate the
diversity-filter property at the specification's concrete test case. -/
def brooklyn_demo_item (i : String) (s : ℝ) : Video × ScoreBreakdown :=
  ({ id := i, title := "", tags := ["brooklyn"], embedding := [], created_at := 0 },
   { vector_score := 0, time_decay := 0, final_score := s, vector_weight := 0,
     time_weight := 1 })

/-- Five pre-sorted candidates all sharing the tag `"brooklyn"`. -/
def brooklyn_feed : List (Video × ScoreBreakdown) :=
  [brooklyn_demo_item "v1" 5, brooklyn_demo_item "v2" 4, brooklyn_demo_item "v3" 3,
   brooklyn_demo_item "v4" 2, brooklyn_demo_item "v5" 1]

/-- A concrete video with a non-empty embedding. -/
def demo_video : Video :=
  { id := "v1", title := "demo", tags := ["brooklyn"], embedding := [1, 0],
    created_at := 0 }

/-- A concrete like record for `demo_video`. -/
def demo_like : LikeDoc :=
  { id := "like1", user_id := "u1", video_id := "v1", created_at := 0 }

/-- A database state in which user `u1` has already liked video `v1`. -/
def liked_db : DB :=
  { videos := [demo_video], likes := [demo_like], users := fun _ => none }

/-- A concrete video whose embedding is empty (the pydantic default for a
video that was stored without one). -/
def demo_video_no_embedding : Video :=
  { id := "v2", title := "demo2", tags := [], embedding := [], created_at := 0 }

/-- A database state containing only `demo_video_no_embedding` and no
likes. -/
def fresh_db : DB :=
  { videos := [demo_video_no_embedding], likes := [], users := fun _ => none }

/-- A tagless video created at time 0, used to exercise the ranking
functions on concrete input. -/
def wv1 : Video :=
  { id := "a", title := "", tags := [], embedding := [], created_at := 0 }

/-- A second video created at time 0. -/
def wv2 : Video :=
  { id := "b", title := "", tags := [], embedding := [], created_at := 0 }

/-- The breakdown `rank_videos_personalized` computes at `now = 0` for a
candidate created at time 0 with raw similarity 1 under weight 1/2. -/
noncomputable def wbreak : ScoreBreakdown :=
  { vector_score := normalize_vector_score 1,
    time_decay := decay_value 0 0 24,
    final_score := calculate_final_score (normalize_vector_score 1)
      (decay_value 0 0 24) (1 / 2) (1 - 1 / 2),
    vector_weight := 1 / 2,
    time_weight := 1 - 1 / 2 }

/-- The breakdown `rank_videos_recency` computes at `now = 0` for a
candidate created at time 0. -/
noncomputable def wrec : ScoreBreakdown :=
  { vector_score := 0,
    time_decay := decay_value 0 0 24,
    final_score := decay_value 0 0 24,
    vector_weight := 0,
    time_weight := 1 }

theorem fold_update_running_mean (now : ℚ) (d : ℕ) :
    ∀ (vs : List (List ℚ)) (S : List ℚ) (n : ℕ) (t0 : ℚ), 0 < n → S.length = d →
      (∀ v ∈ vs, v.length = d) →
      (vs.foldl (fun t v => update_user_taste t v now)
          { embedding := S.map (fun x => x / (n : ℚ)), n := n, updated_at := t0 }).n
        = n + vs.length
      ∧ (vs.foldl (fun t v => update_user_taste t v now)
          { embedding := S.map (fun x => x / (n : ℚ)), n := n, updated_at := t0 }).embedding
        = (vs.foldl (List.zipWith (fun a b => a + b)) S).map
            (fun x => x / ((n + vs.length : ℕ) : ℚ))
  | [], S, n, t0, _, _, _ => by simp
  | v :: vs, S, n, t0, hn, hS, hv => by
    have hn' : (n : ℚ) ≠ 0 := Nat.cast_ne_zero.mpr hn.ne'
    have hstep :
        update_user_taste
            { embedding := S.map (fun x => x / (n : ℚ)), n := n, updated_at := t0 } v now
          = { embedding := (List.zipWith (fun a b => a + b) S v).map
                (fun x => x / ((n + 1 : ℕ) : ℚ)),
              n := n + 1, updated_at := now } := by
      have hfun : (fun (a b : ℚ) => (a / (n : ℚ) * (n : ℚ) + b) / ((n : ℚ) + 1))
          = fun a b => (a + b) / ((n : ℚ) + 1) := by
        funext a b
        rw [div_mul_cancel₀ _ hn']
      unfold update_user_taste
      rw [if_neg hn.ne']
      simp only [List.zipWith_map_left, hfun, List.map_zipWith]
      push_cast
      rfl
    have hlen : (List.zipWith (fun a b => a + b) S v).length = d := by
      have := hv v (List.mem_cons_self v vs)
      simp [List.length_zipWith, hS, this]
    have ih := fold_update_running_mean now d vs (List.zipWith (fun a b => a + b) S v)
      (n + 1) now (Nat.succ_pos n) hlen (fun w hw => hv w (List.mem_cons_of_mem v hw))
    constructor
    · rw [List.foldl_cons, hstep]
      rw [ih.1]
      simp [List.length_cons]
      omega
    · rw [List.foldl_cons, hstep]
      rw [ih.2]
      have : n + 1 + vs.length = n + (v :: vs).length := by
        simp [List.length_cons]
        omega
      rw [this, List.foldl_cons]

theorem foldl_zipWith_add_length (d : ℕ) :
    ∀ (vs : List (List ℚ)) (S : List ℚ), S.length = d → (∀ v ∈ vs, v.length = d) →
      (vs.foldl (List.zipWith (fun a b => a + b)) S).length = d
  | [], S, hS, _ => hS
  | v :: vs, S, hS, hv => by
    rw [List.foldl_cons]
    exact foldl_zipWith_add_length d vs _
      (by simp [List.length_zipWith, hS, hv v (List.mem_cons_self v vs)])
      (fun w hw => hv w (List.mem_cons_of_mem v hw))

theorem foldl_zipWith_add_getD (d i : ℕ) (hi : i < d) :
    ∀ (vs : List (List ℚ)) (S : List ℚ), S.length = d → (∀ v ∈ vs, v.length = d) →
      (vs.foldl (List.zipWith (fun a b => a + b)) S).getD i 0
        = S.getD i 0 + (vs.map (fun v => v.getD i 0)).sum
  | [], S, _, _ => by simp
  | v :: vs, S, hS, hv => by
    have hvlen : v.length = d := hv v (List.mem_cons_self v vs)
    have hzlen : (List.zipWith (fun a b : ℚ => a + b) S v).length = d := by
      simp [List.length_zipWith, hS, hvlen]
    rw [List.foldl_cons]
    rw [foldl_zipWith_add_getD d i hi vs _ hzlen
      (fun w hw => hv w (List.mem_cons_of_mem v hw))]
    have h1 : (List.zipWith (fun a b : ℚ => a + b) S v).getD i 0
        = S.getD i 0 + v.getD i 0 := by
      rw [List.getD_eq_getElem _ _ (by rw [hzlen]; exact hi),
          List.getD_eq_getElem _ _ (by rw [hS]; exact hi),
          List.getD_eq_getElem _ _ (by rw [hvlen]; exact hi),
          List.getElem_zipWith]
    rw [h1, List.map_cons, List.sum_cons]
    ring

/-- C1: folding like vectors `V1..Vk` of common dimension `d` one at a time
through `update_user_taste`, starting from the empty profile, yields a
profile with `n = k` whose embedding is the component-wise arithmetic mean
`(V1[i]+...+Vk[i])/k`; in particular folding a single vector yields that
vector itself with `n = 1`. -/
theorem update_user_taste_fold_mean (now : ℚ) (d : ℕ) (vs : List (List ℚ))
    (hne : vs ≠ []) (hd : ∀ v ∈ vs, v.length = d) :
    (vs.foldl (fun t v => update_user_taste t v now) emptyTaste).n = vs.length
    ∧ (vs.foldl (fun t v => update_user_taste t v now) emptyTaste).embedding.length = d
    ∧ (∀ i, i < d →
        (vs.foldl (fun t v => update_user_taste t v now) emptyTaste).embedding.getD i 0
          = (vs.map (fun v => v.getD i 0)).sum / (vs.length : ℚ))
    ∧ (∀ V, vs = [V] →
        (vs.foldl (fun t v => update_user_taste t v now) emptyTaste).embedding = V) := by
  obtain ⟨v, rest, rfl⟩ : ∃ v rest, vs = v :: rest := by
    cases vs with
    | nil => exact absurd rfl hne
    | cons v rest => exact ⟨v, rest, rfl⟩
  have hvlen : v.length = d := hd v (List.mem_cons_self v rest)
  have hstep0 : update_user_taste emptyTaste v now
      = { embedding := v.map (fun x => x / ((1 : ℕ) : ℚ)), n := 1, updated_at := now } := by
    simp [update_user_taste, emptyTaste]
  have hfold := fold_update_running_mean now d rest v 1 now Nat.one_pos hvlen
    (fun w hw => hd w (List.mem_cons_of_mem v hw))
  have hsum_len := foldl_zipWith_add_length d rest v hvlen
    (fun w hw => hd w (List.mem_cons_of_mem v hw))
  refine ⟨?_, ?_, ?_, ?_⟩
  · rw [List.foldl_cons, hstep0, hfold.1]
    simp [List.length_cons]
    omega
  · rw [List.foldl_cons, hstep0, hfold.2]
    simp [hsum_len]
  · intro i hi
    rw [List.foldl_cons, hstep0, hfold.2]
    rw [List.getD_eq_getElem _ _ (by simp [hsum_len]; exact hi)]
    rw [List.getElem_map]
    rw [← List.getD_eq_getElem _ 0 (by rw [hsum_len]; exact hi)]
    rw [foldl_zipWith_add_getD d i hi rest v hvlen
      (fun w hw => hd w (List.mem_cons_of_mem v hw))]
    rw [List.map_cons, List.sum_cons]
    rw [List.length_cons]
    push_cast
    ring_nf
  · intro V hV
    cases hV
    simp [update_user_taste, emptyTaste]

/-- Witness for C1 at the spec's concrete case `V1=[1,0]`, `V2=[0,1]`:
the folded profile has `n = 2` and embedding mean `[1/2, 1/2]`. -/
theorem update_user_taste_fold_mean_witness :
    (([[(1 : ℚ), 0], [0, 1]] : List (List ℚ)) ≠ [])
    ∧ (List.foldl (fun t v => update_user_taste t v 0) emptyTaste
        [[(1 : ℚ), 0], [0, 1]]).n = 2
    ∧ (List.foldl (fun t v => update_user_taste t v 0) emptyTaste
        [[(1 : ℚ), 0], [0, 1]]).embedding.getD 0 0 = 1 / 2 := by
  refine ⟨by decide, (update_user_taste_fold_mean 0 2 _ (by decide) (by decide)).1, ?_⟩
  have h := (update_user_taste_fold_mean 0 2 [[(1 : ℚ), 0], [0, 1]]
    (by decide) (by decide)).2.2.1 0 (by norm_num)
  rw [h]
  norm_num [List.getD]

/-- C2 (code-bug evidence): `update_user_taste` performs no dimension
check.  On a 2-dimensional profile and a 1-dimensional new vector, the
`zip`-based iteration silently truncates: the profile is updated to the
1-dimensional embedding `[3]` with `n = 2`, and no error of any kind is
raised. -/
theorem update_user_taste_silent_truncation :
    update_user_taste { embedding := [1, 2], n := 1, updated_at := 0 } [5] 0
      = { embedding := [3], n := 2, updated_at := 0 } := by
  norm_num [update_user_taste]

/-- C5: for a positive half-life, `calculate_time_decay` succeeds with the
clamped exponential `decay_value`; that value always lies in `[0, 1]`, it
equals exactly `1` when the creation time is in the future (negative
elapsed time), and it equals the unclamped exponential
`exp(-hours_elapsed / half_life)` whenever the elapsed time is
non-negative. -/
theorem calculate_time_decay_clamped (now created_at decay_hours : ℝ)
    (hpos : 0 < decay_hours) :
    calculate_time_decay now created_at decay_hours
        = .ok (decay_value now created_at decay_hours)
    ∧ 0 ≤ decay_value now created_at decay_hours
    ∧ decay_value now created_at decay_hours ≤ 1
    ∧ (now - created_at < 0 → decay_value now created_at decay_hours = 1)
    ∧ (0 ≤ now - created_at →
        decay_value now created_at decay_hours
          = Real.exp (-((now - created_at) / 3600) / decay_hours)) := by
  refine ⟨?_, ?_, ?_, ?_, ?_⟩
  · unfold calculate_time_decay
    rw [if_neg hpos.ne']
  · exact le_max_left 0 _
  · exact max_le (by norm_num) (min_le_left 1 _)
  · intro hfut
    have harg : 0 ≤ -((now - created_at) / 3600) / decay_hours := by
      apply div_nonneg _ hpos.le
      have : (now - created_at) / 3600 ≤ 0 :=
        div_nonpos_of_nonpos_of_nonneg hfut.le (by norm_num)
      linarith
    have hexp : 1 ≤ Real.exp (-((now - created_at) / 3600) / decay_hours) := by
      calc (1 : ℝ) = Real.exp 0 := Real.exp_zero.symm
        _ ≤ _ := Real.exp_le_exp.mpr harg
    unfold decay_value
    rw [min_eq_left hexp, max_eq_right (by norm_num : (0 : ℝ) ≤ 1)]
  · intro hpast
    have harg : -((now - created_at) / 3600) / decay_hours ≤ 0 := by
      apply div_nonpos_of_nonpos_of_nonneg _ hpos.le
      have : 0 ≤ (now - created_at) / 3600 := div_nonneg hpast (by norm_num)
      linarith
    have hexp : Real.exp (-((now - created_at) / 3600) / decay_hours) ≤ 1 := by
      calc Real.exp (-((now - created_at) / 3600) / decay_hours)
          ≤ Real.exp 0 := Real.exp_le_exp.mpr harg
        _ = 1 := Real.exp_zero
    unfold decay_value
    rw [min_eq_right hexp, max_eq_right (Real.exp_pos _).le]

/-- Witness for C5 at `now = created_at = 0`, half-life 24: the hypotheses
hold and the decay value is within bounds. -/
theorem calculate_time_decay_clamped_witness :
    (0 : ℝ) < 24 ∧ 0 ≤ decay_value 0 0 24 ∧ decay_value 0 0 24 ≤ 1 :=
  ⟨by norm_num, (calculate_time_decay_clamped 0 0 24 (by norm_num)).2.1,
   (calculate_time_decay_clamped 0 0 24 (by norm_num)).2.2.1⟩

/-- C6: with a fixed positive half-life and a fixed `now`, the decay
computation is monotone in recency: a creation time with strictly smaller
elapsed time gets at least as large a decay factor, and both calls
succeed. -/
theorem calculate_time_decay_monotone (now t1 t2 decay_hours : ℝ)
    (hpos : 0 < decay_hours) (hrecent : now - t1 < now - t2) :
    calculate_time_decay now t1 decay_hours = .ok (decay_value now t1 decay_hours)
    ∧ calculate_time_decay now t2 decay_hours = .ok (decay_value now t2 decay_hours)
    ∧ decay_value now t2 decay_hours ≤ decay_value now t1 decay_hours := by
  refine ⟨by unfold calculate_time_decay; rw [if_neg hpos.ne'],
          by unfold calculate_time_decay; rw [if_neg hpos.ne'], ?_⟩
  have hnum : -((now - t2) / 3600) ≤ -((now - t1) / 3600) := by linarith
  have harg : -((now - t2) / 3600) / decay_hours ≤ -((now - t1) / 3600) / decay_hours :=
    (div_le_div_iff_of_pos_right hpos).mpr hnum
  have hexp := Real.exp_le_exp.mpr harg
  unfold decay_value
  exact max_le_max le_rfl (min_le_min le_rfl hexp)

/-- Witness for C6: a video created at `now` beats one created an hour
earlier. -/
theorem calculate_time_decay_monotone_witness :
    ((0 : ℝ) - 0 < 0 - (-3600))
    ∧ decay_value 0 (-3600) 24 ≤ decay_value 0 0 24 :=
  ⟨by norm_num, (calculate_time_decay_monotone 0 0 (-3600) 24 (by norm_num)
      (by norm_num)).2.2⟩

/-- C3 counterexample: calling the decay function with the non-positive
half-life `-1` does not fail at all — it returns the value `1.0` — so in
particular no `InvalidConfigError` is raised; and the final-score function
called with the out-of-range vector weight `3/2` simply returns the
weighted sum instead of failing with `InvalidWeightError`. -/
theorem calculate_time_decay_no_config_validation :
    calculate_time_decay 0 0 (-1) = .ok 1
    ∧ calculate_final_score 1 1 (3 / 2) (-1 / 2) = 1 := by
  constructor
  · unfold calculate_time_decay decay_value
    rw [if_neg (by norm_num)]
    norm_num
  · unfold calculate_final_score
    norm_num

/-- C3 amended: the code performs no configuration validation.  Every
nonzero half-life — negative ones included — makes `calculate_time_decay`
return a clamped decay value normally; only a zero half-life fails, and
with Python's `ZeroDivisionError`, not `InvalidConfigError`; and
`calculate_final_score` accepts arbitrary weights, always returning the
plain weighted sum. -/
theorem scoring_has_no_config_validation (now created_at decay_hours : ℝ)
    (hz : decay_hours ≠ 0) :
    calculate_time_decay now created_at decay_hours
        = .ok (decay_value now created_at decay_hours)
    ∧ (∀ now2 c2 : ℝ, calculate_time_decay now2 c2 0 = .error .zeroDivision)
    ∧ (∀ vs td vw tw : ℝ, calculate_final_score vs td vw tw = vw * vs + tw * td) := by
  refine ⟨?_, fun now2 c2 => ?_, fun vs td vw tw => rfl⟩
  · unfold calculate_time_decay
    rw [if_neg hz]
  · unfold calculate_time_decay
    rw [if_pos rfl]

/-- Witness for the amended C3 at the negative half-life `-1`. -/
theorem scoring_has_no_config_validation_witness :
    ((-1 : ℝ) ≠ 0)
    ∧ calculate_time_decay 0 0 (-1) = .ok (decay_value 0 0 (-1)) :=
  ⟨by norm_num, (scoring_has_no_config_validation 0 0 (-1) (by norm_num)).1⟩

/-- C9: both ranking modes map the empty candidate list to `ok []`: a
well-formed empty ranked feed, never an exception and never a `None`. -/
theorem rank_empty_input (now decay_hours vector_weight : ℝ) :
    rank_videos_personalized now [] decay_hours vector_weight = .ok []
    ∧ rank_videos_recency now [] decay_hours = .ok [] := by
  constructor <;>
    simp [rank_videos_personalized, rank_videos_recency, score_list_personalized,
      score_list_recency, traverse_scores, sort_by_final_desc, Except.map]

theorem le_foldr_max (x : ℕ) : ∀ l : List ℕ, x ∈ l → x ≤ l.foldr max 0
  | a :: l, h => by
    rcases List.mem_cons.mp h with rfl | h'
    · exact le_max_left _ _
    · exact le_trans (le_foldr_max x l h') (le_max_right _ _)

theorem foldr_max_le (b : ℕ) : ∀ l : List ℕ, (∀ x ∈ l, x ≤ b) → l.foldr max 0 ≤ b
  | [], _ => Nat.zero_le b
  | a :: l, h => by
    simp only [List.foldr_cons]
    exact max_le (h a (List.mem_cons_self a l))
      (foldr_max_le b l (fun x hx => h x (List.mem_cons_of_mem a hx)))

theorem diversity_loop_sublist (m : ℕ) :
    ∀ (l : List (Video × ScoreBreakdown)) (tag_counts : String → ℕ),
      List.Sublist (diversity_loop m l tag_counts) l
  | [], _ => List.Sublist.refl []
  | p :: rest, tag_counts => by
    unfold diversity_loop
    by_cases h : tag_max_count tag_counts p.1.tags < m
    · rw [if_pos h]
      exact (diversity_loop_sublist m rest (bump_counts tag_counts p.1.tags)).cons₂ p
    · rw [if_neg h]
      exact (diversity_loop_sublist m rest tag_counts).cons p

theorem diversity_loop_tag_bound (m : ℕ) (t : String) :
    ∀ (l : List (Video × ScoreBreakdown)) (tag_counts : String → ℕ),
      tag_counts t ≤ m →
      tag_counts t + count_with_tag (diversity_loop m l tag_counts) t ≤ m
  | [], _, h => by simpa [diversity_loop, count_with_tag] using h
  | p :: rest, tag_counts, h => by
    unfold diversity_loop
    by_cases hadm : tag_max_count tag_counts p.1.tags < m
    · rw [if_pos hadm]
      by_cases ht : t ∈ p.1.tags
      · have hcnt : tag_counts t < m := by
          have hle := le_foldr_max (tag_counts t) (p.1.tags.map tag_counts)
            (List.mem_map_of_mem tag_counts ht)
          unfold tag_max_count at hadm
          omega
        have hbump : bump_counts tag_counts p.1.tags t = tag_counts t + 1 := by
          simp [bump_counts, ht]
        have ih := diversity_loop_tag_bound m t rest (bump_counts tag_counts p.1.tags)
          (by rw [hbump]; omega)
        rw [hbump] at ih
        unfold count_with_tag at ih ⊢
        rw [List.countP_cons]
        simp [ht]
        omega
      · have hbump : bump_counts tag_counts p.1.tags t = tag_counts t := by
          simp [bump_counts, ht]
        have ih := diversity_loop_tag_bound m t rest (bump_counts tag_counts p.1.tags)
          (by rw [hbump]; omega)
        rw [hbump] at ih
        unfold count_with_tag at ih ⊢
        rw [List.countP_cons]
        simp [ht]
        omega
    · rw [if_neg hadm]
      exact diversity_loop_tag_bound m t rest tag_counts h

theorem diversity_loop_uniform_tag (m : ℕ) (t : String) :
    ∀ (l : List (Video × ScoreBreakdown)) (tag_counts : String → ℕ) (a : ℕ),
      (∀ p ∈ l, t ∈ p.1.tags) → (∀ s, tag_counts s ≤ a) → tag_counts t = a →
      a ≤ m → diversity_loop m l tag_counts = l.take (m - a)
  | [], _, a, _, _, _, _ => by simp [diversity_loop]
  | p :: rest, tag_counts, a, hall, hle, hta, ham => by
    have htp : t ∈ p.1.tags := hall p (List.mem_cons_self p rest)
    have hmax : tag_max_count tag_counts p.1.tags = a := by
      apply le_antisymm
      · exact foldr_max_le a _ (by
          intro x hx
          obtain ⟨s, _, rfl⟩ := List.mem_map.mp hx
          exact hle s)
      · rw [← hta]
        exact le_foldr_max _ _ (List.mem_map_of_mem tag_counts htp)
    unfold diversity_loop
    by_cases hadm : a < m
    · rw [if_pos (by rw [hmax]; exact hadm)]
      have hrec := diversity_loop_uniform_tag m t rest (bump_counts tag_counts p.1.tags)
        (a + 1)
        (fun q hq => hall q (List.mem_cons_of_mem p hq))
        (by
          intro s
          unfold bump_counts
          by_cases hs : s ∈ p.1.tags
          · simp [hs]
            exact hle s
          · simp [hs]
            exact le_trans (hle s) (Nat.le_succ a))
        (by simp [bump_counts, htp, hta])
        (by omega)
      rw [hrec]
      have : m - a = (m - (a + 1)) + 1 := by omega
      rw [this, List.take_succ_cons]
    · rw [if_neg (by rw [hmax]; exact hadm)]
      have ha : a = m := by omega
      have hrec := diversity_loop_uniform_tag m t rest tag_counts a
        (fun q hq => hall q (List.mem_cons_of_mem p hq)) hle hta ham
      rw [hrec, ha]
      simp

/-- C7: for a cap of at least 1, the diversity filter returns a subsequence
of its pre-sorted input (survivors keep their order and breakdowns), no tag
occurs in more than `max_same_tags` surviving items, and when every
candidate shares a common tag the survivors are exactly the first
`max_same_tags` — i.e. the highest-scored — entries of the input. -/
theorem apply_diversity_filter_correct (l : List (Video × ScoreBreakdown))
    (m : ℕ) (hm : 1 ≤ m) :
    List.Sublist (apply_diversity_filter l m) l
    ∧ (∀ t : String, count_with_tag (apply_diversity_filter l m) t ≤ m)
    ∧ (∀ t : String, (∀ p ∈ l, t ∈ p.1.tags) → apply_diversity_filter l m = l.take m) := by
  refine ⟨?_, ?_, ?_⟩
  · unfold apply_diversity_filter
    by_cases hlen : l.length ≤ m
    · rw [if_pos hlen]
    · rw [if_neg hlen]
      exact diversity_loop_sublist m l _
  · intro t
    unfold apply_diversity_filter
    by_cases hlen : l.length ≤ m
    · rw [if_pos hlen]
      exact le_trans (List.countP_le_length _) hlen
    · rw [if_neg hlen]
      have := diversity_loop_tag_bound m t l (fun _ => 0) (Nat.zero_le m)
      omega
  · intro t hall
    unfold apply_diversity_filter
    by_cases hlen : l.length ≤ m
    · rw [if_pos hlen, List.take_of_length_le hlen]
    · rw [if_neg hlen]
      have := diversity_loop_uniform_tag m t l (fun _ => 0) 0 hall
        (fun _ => Nat.le_refl 0) rfl (Nat.zero_le m)
      simpa using this

/-- Witness for C7 at the specification's concrete case: five candidates
all tagged `"brooklyn"` with cap 2; exactly the two highest-scored survive,
in order. -/
theorem apply_diversity_filter_correct_witness :
    1 ≤ 2
    ∧ apply_diversity_filter brooklyn_feed 2 = brooklyn_feed.take 2
    ∧ List.Sublist (apply_diversity_filter brooklyn_feed 2) brooklyn_feed
    ∧ brooklyn_feed.take 2 = [brooklyn_demo_item "v1" 5, brooklyn_demo_item "v2" 4] := by
  refine ⟨by norm_num, ?_, (apply_diversity_filter_correct brooklyn_feed 2 (by norm_num)).1, rfl⟩
  exact (apply_diversity_filter_correct brooklyn_feed 2 (by norm_num)).2.2 "brooklyn"
    (by decide)

/-- C8: when the like ledger already records the (user, video) pair and the
video exists, the like endpoint returns success with the
"already liked" message and leaves the whole database — taste profile
included — untouched, and `create_like` inserts nothing, returning the
existing like's id. -/
theorem like_video_idempotent (db : DB) (user_id video_id : String) (now : ℚ)
    (fresh_id : String) (v : Video) (l : LikeDoc)
    (hv : get_video db video_id = some v)
    (hl : find_like db user_id video_id = some l) :
    like_video db user_id video_id now fresh_id = (.success "Video already liked", db)
    ∧ create_like db user_id video_id now fresh_id = (l.id, db) := by
  have hliked : user_has_liked db user_id video_id = true := by
    have hl' := hl
    unfold find_like at hl'
    unfold user_has_liked
    rw [List.any_eq_true]
    refine ⟨l, List.mem_of_find?_eq_some hl', ?_⟩
    have hsat := List.find?_some hl'
    exact hsat
  constructor
  · unfold like_video
    rw [hv]
    simp [hliked]
  · unfold create_like
    rw [hl]

/-- Witness for C8: in `liked_db`, user `u1` already liked video `v1`;
re-liking returns success and changes nothing, and `create_like` returns
the stored like id `like1`. -/
theorem like_video_idempotent_witness :
    get_video liked_db "v1" = some demo_video
    ∧ like_video liked_db "u1" "v1" 0 "fresh" = (.success "Video already liked", liked_db)
    ∧ create_like liked_db "u1" "v1" 0 "fresh" = ("like1", liked_db) :=
  ⟨rfl,
   (like_video_idempotent liked_db "u1" "v1" 0 "fresh" demo_video demo_like rfl rfl).1,
   (like_video_idempotent liked_db "u1" "v1" 0 "fresh" demo_video demo_like rfl rfl).2⟩

/-- C10: when the target video exists but has an empty embedding and the
pair is not yet in the ledger, the like endpoint creates the like record
and reports success, while the users collection — hence every taste
profile's embedding, count and `updated_at` — is left exactly as it was. -/
theorem like_video_empty_embedding_frame (db : DB) (user_id video_id : String)
    (now : ℚ) (fresh_id : String) (v : Video)
    (hv : get_video db video_id = some v)
    (hemb : v.embedding = [])
    (hnl : user_has_liked db user_id video_id = false) :
    like_video db user_id video_id now fresh_id
      = (.success "Video liked successfully",
         { db with likes := db.likes ++
             [{ id := fresh_id, user_id := user_id, video_id := video_id,
                created_at := now }] })
    ∧ (like_video db user_id video_id now fresh_id).2.users = db.users := by
  have hfl : find_like db user_id video_id = none := by
    unfold find_like
    rw [List.find?_eq_none]
    unfold user_has_liked at hnl
    rw [List.any_eq_false] at hnl
    exact hnl
  have h1 : like_video db user_id video_id now fresh_id
      = (.success "Video liked successfully",
         { db with likes := db.likes ++
             [{ id := fresh_id, user_id := user_id, video_id := video_id,
                created_at := now }] }) := by
    unfold like_video
    rw [hv]
    simp only [hnl, Bool.false_eq_true, if_false]
    unfold create_like
    rw [hfl]
    simp [hemb]
  exact ⟨h1, by rw [h1]⟩

/-- Witness for C10: liking the embedding-less video `v2` in `fresh_db`
creates the like record, reports success, and leaves the users collection
untouched. -/
theorem like_video_empty_embedding_frame_witness :
    get_video fresh_db "v2" = some demo_video_no_embedding
    ∧ like_video fresh_db "u1" "v2" 0 "fresh"
        = (.success "Video liked successfully",
           { fresh_db with likes := fresh_db.likes ++
               [{ id := "fresh", user_id := "u1", video_id := "v2",
                  created_at := 0 }] })
    ∧ (like_video fresh_db "u1" "v2" 0 "fresh").2.users = fresh_db.users :=
  ⟨rfl,
   (like_video_empty_embedding_frame fresh_db "u1" "v2" 0 "fresh"
     demo_video_no_embedding rfl rfl rfl).1,
   (like_video_empty_embedding_frame fresh_db "u1" "v2" 0 "fresh"
     demo_video_no_embedding rfl rfl rfl).2⟩

theorem final_desc_trans : ∀ a b c : Video × ScoreBreakdown,
    final_desc a b → final_desc b c → final_desc a c := by
  intro a b c hab hbc
  simp only [final_desc, decide_eq_true_eq] at hab hbc ⊢
  exact le_trans hbc hab

theorem final_desc_total : ∀ a b : Video × ScoreBreakdown,
    final_desc a b || final_desc b a := by
  intro a b
  simp only [final_desc, Bool.or_eq_true, decide_eq_true_eq]
  exact le_total b.2.final_score a.2.final_score

theorem traverse_scores_cons_ok {α β : Type} {f : α → Except PyErr β} {a : α}
    {tl : List α} {r : List β}
    (hok : traverse_scores f (a :: tl) = .ok r) :
    ∃ b rt, f a = .ok b ∧ traverse_scores f tl = .ok rt ∧ r = b :: rt := by
  unfold traverse_scores at hok
  cases hfa : f a with
  | error e =>
    rw [hfa] at hok
    simp at hok
  | ok b =>
    rw [hfa] at hok
    cases htl : traverse_scores f tl with
    | error e =>
      rw [htl] at hok
      simp at hok
    | ok rt =>
      rw [htl] at hok
      simp at hok
      exact ⟨b, rt, rfl, rfl, hok.symm⟩

theorem traverse_scores_sublist {α β : Type} (f : α → Except PyErr β) :
    ∀ {l' l : List α}, List.Sublist l' l → ∀ {r : List β},
      traverse_scores f l = .ok r →
      ∃ r', traverse_scores f l' = .ok r' ∧ List.Sublist r' r := by
  intro l' l hsub
  induction hsub with
  | slnil =>
    intro r _
    exact ⟨[], rfl, List.nil_sublist r⟩
  | cons a h ih =>
    intro r hok
    obtain ⟨b, rt, hfa, htl, rfl⟩ := traverse_scores_cons_ok hok
    obtain ⟨r', hok', hsub'⟩ := ih htl
    exact ⟨r', hok', hsub'.cons b⟩
  | cons₂ a h ih =>
    intro r hok
    obtain ⟨b, rt, hfa, htl, rfl⟩ := traverse_scores_cons_ok hok
    obtain ⟨r', hok', hsub'⟩ := ih htl
    refine ⟨b :: r', ?_, hsub'.cons₂ b⟩
    unfold traverse_scores
    rw [hfa, hok']

theorem traverse_scores_pair_stable {α β : Type} (f : α → Except PyErr β)
    {l : List α} {r : List β} (hok : traverse_scores f l = .ok r)
    {c1 c2 : α} {i1 i2 : β}
    (hsub : List.Sublist [c1, c2] l)
    (h1 : f c1 = .ok i1) (h2 : f c2 = .ok i2) :
    List.Sublist [i1, i2] r := by
  obtain ⟨r', hok', hsub'⟩ := traverse_scores_sublist f hsub hok
  have hr : traverse_scores f [c1, c2] = .ok [i1, i2] := by
    simp [traverse_scores, h1, h2]
  rw [hr] at hok'
  injection hok' with h
  rw [← h] at hsub'
  exact hsub'

theorem sort_by_final_desc_sorted (l : List (Video × ScoreBreakdown)) :
    List.Pairwise (fun a b => b.2.final_score ≤ a.2.final_score)
      (sort_by_final_desc l) := by
  have h := List.sorted_mergeSort final_desc_trans final_desc_total l
  unfold sort_by_final_desc
  refine h.imp ?_
  intro a b hab
  simpa [final_desc] using hab

theorem sort_by_final_desc_stable {l : List (Video × ScoreBreakdown)}
    {a b : Video × ScoreBreakdown} (heq : a.2.final_score = b.2.final_score)
    (hsub : List.Sublist [a, b] l) :
    List.Sublist [a, b] (sort_by_final_desc l) := by
  unfold sort_by_final_desc
  exact List.pair_sublist_mergeSort final_desc_trans final_desc_total
    (by simp [final_desc, heq]) hsub

/-- C4: both ranking modes return the scored candidates sorted by
`final_score` in descending order, and the sort is stable: any two
candidates whose computed breakdowns carry identical final scores appear in
the output in the same relative order they had in the input candidate
list. -/
theorem rank_videos_sorted_and_stable (now decay_hours vector_weight : ℝ)
    (video_scores : List (Video × ℝ)) (videos : List Video)
    (outP outR : List (Video × ScoreBreakdown))
    (hokP : rank_videos_personalized now video_scores decay_hours vector_weight
      = .ok outP)
    (hokR : rank_videos_recency now videos decay_hours = .ok outR) :
    List.Pairwise (fun a b => b.2.final_score ≤ a.2.final_score) outP
    ∧ (∀ c1 c2 i1 i2, List.Sublist [c1, c2] video_scores →
        score_item_personalized now decay_hours vector_weight c1 = .ok i1 →
        score_item_personalized now decay_hours vector_weight c2 = .ok i2 →
        i1.2.final_score = i2.2.final_score →
        List.Sublist [i1, i2] outP)
    ∧ List.Pairwise (fun a b => b.2.final_score ≤ a.2.final_score) outR
    ∧ (∀ c1 c2 i1 i2, List.Sublist [c1, c2] videos →
        score_item_recency now decay_hours c1 = .ok i1 →
        score_item_recency now decay_hours c2 = .ok i2 →
        i1.2.final_score = i2.2.final_score →
        List.Sublist [i1, i2] outR) := by
  obtain ⟨preP, hpreP, rfl⟩ :
      ∃ pre, score_list_personalized now decay_hours vector_weight video_scores
        = .ok pre ∧ outP = sort_by_final_desc pre := by
    unfold rank_videos_personalized at hokP
    cases hsl : score_list_personalized now decay_hours vector_weight video_scores with
    | error e =>
      rw [hsl] at hokP
      simp [Except.map] at hokP
    | ok pre =>
      rw [hsl] at hokP
      simp [Except.map] at hokP
      exact ⟨pre, rfl, hokP.symm⟩
  obtain ⟨preR, hpreR, rfl⟩ :
      ∃ pre, score_list_recency now decay_hours videos = .ok pre
        ∧ outR = sort_by_final_desc pre := by
    unfold rank_videos_recency at hokR
    cases hsl : score_list_recency now decay_hours videos with
    | error e =>
      rw [hsl] at hokR
      simp [Except.map] at hokR
    | ok pre =>
      rw [hsl] at hokR
      simp [Except.map] at hokR
      exact ⟨pre, rfl, hokR.symm⟩
  refine ⟨sort_by_final_desc_sorted preP, ?_, sort_by_final_desc_sorted preR, ?_⟩
  · intro c1 c2 i1 i2 hsub h1 h2 heq
    exact sort_by_final_desc_stable heq
      (traverse_scores_pair_stable _ hpreP hsub h1 h2)
  · intro c1 c2 i1 i2 hsub h1 h2 heq
    exact sort_by_final_desc_stable heq
      (traverse_scores_pair_stable _ hpreR hsub h1 h2)

/-- Witness for C4: two candidates created at the same time with the same
raw similarity get identical final scores; both ranking modes succeed, the
outputs are sorted, and the tied pair keeps its input order. -/
theorem rank_videos_sorted_and_stable_witness :
    rank_videos_personalized 0 [(wv1, 1), (wv2, 1)] 24 (1 / 2)
        = .ok [(wv1, wbreak), (wv2, wbreak)]
    ∧ rank_videos_recency 0 [wv1, wv2] 24 = .ok [(wv1, wrec), (wv2, wrec)]
    ∧ List.Pairwise (fun a b => b.2.final_score ≤ a.2.final_score)
        [(wv1, wbreak), (wv2, wbreak)]
    ∧ List.Sublist [(wv1, wbreak), (wv2, wbreak)] [(wv1, wbreak), (wv2, wbreak)] := by
  have h1 : score_item_personalized 0 24 (1 / 2) (wv1, 1) = .ok (wv1, wbreak) := by
    unfold score_item_personalized calculate_time_decay
    rw [if_neg (show ¬((24 : ℝ) = 0) by norm_num)]
    rfl
  have h2 : score_item_personalized 0 24 (1 / 2) (wv2, 1) = .ok (wv2, wbreak) := by
    unfold score_item_personalized calculate_time_decay
    rw [if_neg (show ¬((24 : ℝ) = 0) by norm_num)]
    rfl
  have hr1 : score_item_recency 0 24 wv1 = .ok (wv1, wrec) := by
    unfold score_item_recency calculate_time_decay
    rw [if_neg (show ¬((24 : ℝ) = 0) by norm_num)]
    rfl
  have hr2 : score_item_recency 0 24 wv2 = .ok (wv2, wrec) := by
    unfold score_item_recency calculate_time_decay
    rw [if_neg (show ¬((24 : ℝ) = 0) by norm_num)]
    rfl
  have hsortP : List.Pairwise (fun a b : Video × ScoreBreakdown => final_desc a b)
      [(wv1, wbreak), (wv2, wbreak)] := by
    simp [final_desc]
  have hsortR : List.Pairwise (fun a b : Video × ScoreBreakdown => final_desc a b)
      [(wv1, wrec), (wv2, wrec)] := by
    simp [final_desc]
  have hokP : rank_videos_personalized 0 [(wv1, 1), (wv2, 1)] 24 (1 / 2)
      = .ok [(wv1, wbreak), (wv2, wbreak)] := by
    have hpre : score_list_personalized 0 24 (1 / 2) [(wv1, 1), (wv2, 1)]
        = .ok [(wv1, wbreak), (wv2, wbreak)] := by
      unfold score_list_personalized traverse_scores
      rw [h1]
      unfold traverse_scores
      rw [h2]
      rfl
    unfold rank_videos_personalized
    rw [hpre]
    simp [Except.map, sort_by_final_desc]
    exact List.mergeSort_of_sorted hsortP
  have hokR : rank_videos_recency 0 [wv1, wv2] 24
      = .ok [(wv1, wrec), (wv2, wrec)] := by
    have hpre : score_list_recency 0 24 [wv1, wv2]
        = .ok [(wv1, wrec), (wv2, wrec)] := by
      unfold score_list_recency traverse_scores
      rw [hr1]
      unfold traverse_scores
      rw [hr2]
      rfl
    unfold rank_videos_recency
    rw [hpre]
    simp [Except.map, sort_by_final_desc]
    exact List.mergeSort_of_sorted hsortR
  refine ⟨hokP, hokR,
    (rank_videos_sorted_and_stable 0 24 (1 / 2) [(wv1, 1), (wv2, 1)] [wv1, wv2]
      [(wv1, wbreak), (wv2, wbreak)] [(wv1, wrec), (wv2, wrec)] hokP hokR).1,
    (rank_videos_sorted_and_stable 0 24 (1 / 2) [(wv1, 1), (wv2, 1)] [wv1, wv2]
      [(wv1, wbreak), (wv2, wbreak)] [(wv1, wrec), (wv2, wrec)] hokP hokR).2.1
      (wv1, 1) (wv2, 1) (wv1, wbreak) (wv2, wbreak)
      (List.Sublist.refl _) h1 h2 rfl⟩
